import Mathlib

/-!
Shallow embedding of the img2csv table-recovery pipeline (src/lib.rs) and
proofs about it.

Modelling conventions:

* Pixel buffers are `Image` (RGBA pixels, `Nat` channels) and `Mask`
  (two-color buffers: `false` = BACKGROUND/black, `true` = the reserved
  marker color FEATURE resp. LINE).  Every color test in the source is a
  comparison against black (`Rgba([0,0,0,255])`), and every write is either
  black or one fixed marker color, so a `Bool` per pixel is a faithful
  model of both mask kinds.
* The `data` field is a total function `Nat → Nat → _`; pixels outside
  `[0,width) × [0,height)` are junk and never constrain the theorems.
* Out-of-bounds `get_pixel` calls panic in the `image` crate, so fallible
  pixel reads are modelled with `Option`: `detect_lines` (the only stage
  whose reads are not bounds-checked by its own loop structure) returns
  `Option Mask`, `none` standing for the panic.
* `u32` subtraction in the source wraps; `u32sub` reproduces that
  (operands in the program are `u32`, hence `< 2^32`).  The other
  subtractions in the source are proved non-underflowing (see C9), so they
  are written with truncating `Nat` subtraction.
* The grayscale conversion is an external per-pixel luma primitive; it is
  passed in as a function `gs : Rgba → Rgba`.
* The `while` loops of the cell segmenter advance their cursor by at least
  1 each iteration, so they are embedded structurally with a fuel
  parameter; the callers supply fuel `width` resp. `height`, which bounds
  the iteration count (the cursor starts at 7 resp. 9 and the loop stops
  as soon as the cursor passes the bound, which happens after at most
  `width` resp. `height` steps, strictly before the fuel runs out).
-/

/-- The minimum length of a stretch of pixels that can make up a line
(`LINE_MIN_LENGTH_PX` in the source). -/
def LINE_MIN_LENGTH_PX : Nat := 50

/-- The boundary along the image border ignored for feature detection
(`FEATURE_BOUNDARY` in the source). -/
def FEATURE_BOUNDARY : Nat := 8

/-- The minimum height of a cell (`CELL_MIN_HEIGHT_PX` in the source). -/
def CELL_MIN_HEIGHT_PX : Nat := 10

/-- The minimum width of a cell (`CELL_MIN_WIDTH_PX` in the source). -/
def CELL_MIN_WIDTH_PX : Nat := 8

/-- Wrapping `u32` subtraction.  For operands `a, b < 2^32` this agrees
with Rust's `a - b` on `u32` (which wraps modulo `2^32`). -/
def u32sub (a b : Nat) : Nat := if b ≤ a then a - b else a + 4294967296 - b

/-- An RGBA pixel; channels are 8-bit values modelled as `Nat`. -/
structure Rgba where
  r : Nat
  g : Nat
  b : Nat
  a : Nat
deriving DecidableEq

/-- A pixel buffer with per-pixel RGBA data (`DynamicImage` in the source). -/
structure Image where
  width : Nat
  height : Nat
  data : Nat → Nat → Rgba

/-- A two-color pixel buffer: `false` is BACKGROUND (black), `true` is the
marker color (magenta FEATURE resp. red LINE). -/
structure Mask where
  width : Nat
  height : Nat
  data : Nat → Nat → Bool

instance : Inhabited Mask := ⟨⟨0, 0, fun _ _ => false⟩⟩

/-- Bounds-checked pixel read; `none` models the `image` crate's
out-of-bounds panic. -/
def readPix (m : Mask) (x y : Nat) : Option Bool :=
  if x < m.width ∧ y < m.height then some (m.data x y) else none

/-- `could_be_feature` from the source: the pixel is dark enough to be
part of a line, i.e. all three channels are `<= 130` (`THRESHOLD`). -/
def could_be_feature (px : Rgba) : Bool :=
  px.r ≤ 130 && px.g ≤ 130 && px.b ≤ 130

/-- The classification loop of `detect_features` (source lines 79–84):
every pixel of the grayscale image becomes magenta (FEATURE, `true`) if
`could_be_feature` holds of it, and black (BACKGROUND, `false`) otherwise.
`gs` is the external per-pixel grayscale (luma) primitive, so
`gs (img.data x y)` is the pixel of `img.grayscale()` at `(x, y)`. -/
def classify (gs : Rgba → Rgba) (img : Image) : Mask :=
  ⟨img.width, img.height, fun x y => could_be_feature (gs (img.data x y))⟩

/-- `detect_features` from the source.  After the classification loop, if
`width < FEATURE_BOUNDARY || height < FEATURE_BOUNDARY` the mask is
returned as is; otherwise four loops write black over the four border
bands.  All four loops write only the constant black, so their sequential
composition equals the pointwise nest of conditionals below (first
matching band wins; each condition is exactly the range of the
corresponding source loop, restricted to in-bounds pixels).  In the else
branch `width ≥ 8` and `height ≥ 8`, so `width - FEATURE_BOUNDARY` and
`height - FEATURE_BOUNDARY` do not underflow. -/
def detect_features (gs : Rgba → Rgba) (img : Image) : Mask :=
  if img.width < FEATURE_BOUNDARY ∨ img.height < FEATURE_BOUNDARY then
    classify gs img
  else
    ⟨img.width, img.height, fun x y =>
      if x < min FEATURE_BOUNDARY img.width then false
      else if img.width - FEATURE_BOUNDARY ≤ x then false
      else if y < min FEATURE_BOUNDARY img.height then false
      else if img.height - FEATURE_BOUNDARY ≤ y then false
      else (classify gs img).data x y⟩

/-- The count of featureful pixels among `(x, y) .. (x+49, y)`, i.e. the
loop `for k in x .. (x + LINE_MIN_LENGTH_PX)` of `is_line_to_right`
(reparametrised by the offset `k` from `x`). -/
def countRight (m : Mask) (x y : Nat) : Nat :=
  (List.range LINE_MIN_LENGTH_PX).foldl
    (fun c k => if m.data (x + k) y then c + 1 else c) 0

/-- The count of featureful pixels among `(x, y) .. (x, y+49)`, i.e. the
counting loop of `is_line_downward`. -/
def countDown (m : Mask) (x y : Nat) : Nat :=
  (List.range LINE_MIN_LENGTH_PX).foldl
    (fun c k => if m.data x (y + k) then c + 1 else c) 0

/-- The density comparison
`(count as f32) / (LINE_MIN_LENGTH_PX as f32) >= LINE_FEATUREFUL_THRESHOLD`
with `LINE_FEATUREFUL_THRESHOLD = 0.95f32`.  For the integer counts
`c ∈ [0, 50]` arising here the `f32` comparison decides exactly the
rational comparison `c / 50 ≥ 19/20` (both hold iff `c ≥ 48`): `c` and
`50.0` are exact in `f32`; the rounded quotient for `c = 47` is `≈ 0.94`
and for `c = 48` is `≈ 0.96`, while the `f32` nearest to `0.95` is
`≈ 0.9499999881`, so the cut sits between 47 and 48 in both readings.
The rational comparison is written over `Nat` as `19 * 50 ≤ 20 * c`. -/
def lineVerdict (c : Nat) : Bool :=
  decide (19 * LINE_MIN_LENGTH_PX ≤ 20 * c)

/-- `is_line_to_right` from the source.  The counting loop reads the 50
pixels `(x, y) .. (x+49, y)`; those reads are in bounds exactly when
`x + 50 ≤ width ∧ y < height`, otherwise `get_pixel` panics (`none`). -/
def is_line_to_right (m : Mask) (x y : Nat) : Option Bool :=
  if x + LINE_MIN_LENGTH_PX ≤ m.width ∧ y < m.height then
    some (lineVerdict (countRight m x y))
  else none

/-- `is_line_downward` from the source, symmetric in `+y`. -/
def is_line_downward (m : Mask) (x y : Nat) : Option Bool :=
  if x < m.width ∧ y + LINE_MIN_LENGTH_PX ≤ m.height then
    some (lineVerdict (countDown m x y))
  else none

/-- Painting loop `for k in x .. (x + LINE_MIN_LENGTH_PX) { put_pixel(k, y, magic) }`
of `detect_lines`, as a pointwise update. -/
def paintRight (t : Mask) (x y : Nat) : Mask :=
  ⟨t.width, t.height, fun k j =>
    if j = y ∧ x ≤ k ∧ k < x + LINE_MIN_LENGTH_PX then true else t.data k j⟩

/-- Painting loop `for k in y .. (y + LINE_MIN_LENGTH_PX) { put_pixel(x, k, magic) }`
of `detect_lines`. -/
def paintDown (t : Mask) (x y : Nat) : Mask :=
  ⟨t.width, t.height, fun k j =>
    if k = x ∧ y ≤ j ∧ j < y + LINE_MIN_LENGTH_PX then true else t.data k j⟩

/-- The guarded horizontal check of the main scan:
`if x < width - LINE_MIN_LENGTH_PX { is_line_to_right(...) }`.
The guard subtraction is wrapping `u32` arithmetic.  A failed guard means
no reads and no painting, modelled as verdict `some false`. -/
def dirCheckH (f : Mask) (x y : Nat) : Option Bool :=
  if x < u32sub f.width LINE_MIN_LENGTH_PX then is_line_to_right f x y
  else some false

/-- The guarded vertical check of the main scan:
`if y < height - LINE_MIN_LENGTH_PX { is_line_downward(...) }`. -/
def dirCheckV (f : Mask) (x y : Nat) : Option Bool :=
  if y < u32sub f.height LINE_MIN_LENGTH_PX then is_line_downward f x y
  else some false

/-- One iteration of the main scan of `detect_lines` at feature-mask pixel
`(x, y)`: BACKGROUND pixels are skipped; otherwise the horizontal and the
vertical check run (reading only `f`) and paint into `t` when they hold.
The source runs check-H, paint-H, check-V, paint-V in that order; since
checks read only `f` and paints write only `t`, evaluating both checks
before both paints is equivalent, including which check panics first. -/
def lineScanStep (f : Mask) (t : Mask) (x y : Nat) : Option Mask :=
  if f.data x y then
    (dirCheckH f x y).bind fun bh =>
      (dirCheckV f x y).map fun bv =>
        let t1 := if bh then paintRight t x y else t
        if bv then paintDown t1 x y else t1
  else some t

/-- The main scan of `detect_lines`: the fresh output mask `tmp` starts
all black, and `features.pixels()` is traversed in raster order (row by
row, `x` fastest). -/
def mainScan (f : Mask) : Option Mask :=
  (List.range f.height).foldlM
    (fun t y => (List.range f.width).foldlM (fun t2 x => lineScanStep f t2 x y) t)
    (⟨f.width, f.height, fun _ _ => false⟩ : Mask)

/-- Painting loop of the left-margin closing heuristic:
`for x in 0 .. (FEATURE_BOUNDARY + 1) { put_pixel(x, y, magic) }`. -/
def paintLeftMargin (t : Mask) (y : Nat) : Mask :=
  ⟨t.width, t.height, fun k j =>
    if j = y ∧ k < FEATURE_BOUNDARY + 1 then true else t.data k j⟩

/-- The left-margin closing post-pass of `detect_lines` (source lines
200–206): for every row `y`, if the pixel at `(FEATURE_BOUNDARY + 1, y)`
is LINE, paint LINE over `x ∈ 0 .. FEATURE_BOUNDARY` (inclusive) of that
row.  The trigger read is not bounds-checked in the source, hence the
`Option` via `readPix`. -/
def postPass (t : Mask) : Option Mask :=
  (List.range t.height).foldlM
    (fun t2 y =>
      (readPix t2 (FEATURE_BOUNDARY + 1) y).map fun b =>
        if b then paintLeftMargin t2 y else t2)
    t

/-- `detect_lines` from the source: the main scan over the feature mask
followed by the left-margin closing post-pass. -/
def detect_lines (f : Mask) : Option Mask :=
  (mainScan f).bind postPass

/-- A detected table cell (`Cell` in the source). -/
structure Cell where
  row : Nat
  col : Nat
  x : Nat
  y : Nat
  width : Nat
  height : Nat
deriving DecidableEq

/-- The code after the column loop of `detect_cells_in_row`: `Make a final
cell with the border wall.` -/
def cellTrailing (lines : Mask) (r cy ch : Nat) (prev_x c : Nat) : List Cell :=
  if prev_x + CELL_MIN_WIDTH_PX < lines.width then
    [⟨r, c, prev_x, cy, lines.width - prev_x - 1, ch⟩]
  else []

/-- The column-scan loop of `detect_cells_in_row`
(`while x < width { ... }`), with the post-loop trailing-cell emission
inlined at loop exit.  The fuel argument only bounds the number of
iterations; every call supplies enough fuel for the loop to reach its
exit condition first. -/
def cellScan (lines : Mask) (r cy ch cym : Nat) :
    Nat → Nat → Nat → Nat → List Cell
  | 0, _, prev_x, c => cellTrailing lines r cy ch prev_x c
  | fuel + 1, x, prev_x, c =>
    if x < lines.width then
      if lines.data x cym then
        ⟨r, c, prev_x, cy, x - prev_x - 1, ch⟩ ::
          cellScan lines r cy ch cym fuel (x + CELL_MIN_WIDTH_PX) (x + 1) (c + 1)
      else
        cellScan lines r cy ch cym fuel (x + 1) prev_x c
    else cellTrailing lines r cy ch prev_x c

/-- `detect_cells_in_row` from the source.  `cell_height` and
`cell_y_median` are computed as in the source; the accumulator push of
the source corresponds to list order here.  Reads happen at
`(x, cell_y_median)` with `x < width` from the loop guard, and the
callers establish `cell_y_median < height`, so the reads are in
bounds. -/
def detect_cells_in_row (lines : Mask) (cur_row y_top y_bottom : Nat) : List Cell :=
  cellScan lines cur_row y_top (y_bottom - y_top - 1)
    (y_top + (y_bottom - y_top - 1) / 2) lines.width (CELL_MIN_WIDTH_PX - 1) 0 0

/-- The code after the row loop of `detect_cells`: `Make a final row with
the border wall.` -/
def rowTrailing (lines : Mask) (prev_y r : Nat) : List Cell :=
  if prev_y + CELL_MIN_HEIGHT_PX < lines.height then
    detect_cells_in_row lines r prev_y (lines.height - 1)
  else []

/-- The row-scan loop of `detect_cells` (`while y < height { ... }`),
with the post-loop trailing-row emission inlined at loop exit.  The fuel
bounds iterations as in `cellScan`. -/
def rowScan (lines : Mask) : Nat → Nat → Nat → Nat → List Cell
  | 0, _, prev_y, r => rowTrailing lines prev_y r
  | fuel + 1, y, prev_y, r =>
    if y < lines.height then
      if lines.data 0 y || y == lines.height - 1 then
        detect_cells_in_row lines r prev_y y ++
          rowScan lines fuel (y + CELL_MIN_HEIGHT_PX) (y + 1) (r + 1)
      else rowScan lines fuel (y + 1) prev_y r
    else rowTrailing lines prev_y r

/-- `detect_cells` from the source. -/
def detect_cells (lines : Mask) : List Cell :=
  rowScan lines lines.height (CELL_MIN_HEIGHT_PX - 1) 0 0

/-- `get_cells` from the source: the three stages composed; `none` models
a panic in `detect_lines`. -/
def get_cells (gs : Rgba → Rgba) (img : Image) : Option (List Cell) :=
  (detect_lines (detect_features gs img)).map detect_cells

/-! ### Specification-side vocabulary (used in theorem statements) -/

/-- The number of FEATURE pixels among the 50 pixels `(x, y) .. (x+49, y)`
of the mask (claim vocabulary for `is_line_to_right`). -/
def hFeatCount (m : Mask) (x y : Nat) : Nat :=
  ((Finset.range LINE_MIN_LENGTH_PX).filter fun k => m.data (x + k) y = true).card

/-- The number of FEATURE pixels among the 50 pixels `(x, y) .. (x, y+49)`
of the mask. -/
def vFeatCount (m : Mask) (x y : Nat) : Nat :=
  ((Finset.range LINE_MIN_LENGTH_PX).filter fun k => m.data x (y + k) = true).card

/-- A pixel `(x, y)` seeds a horizontal LINE span in the main scan: it is
FEATURE, satisfies the guard `x < width − 50`, and the fraction of FEATURE
pixels among the 50 pixels extending in `+x` is at least 0.95. -/
def hSeed (m : Mask) (x y : Nat) : Prop :=
  m.data x y = true ∧ x < m.width - LINE_MIN_LENGTH_PX ∧
    (0.95 : ℚ) ≤ (hFeatCount m x y : ℚ) / 50

/-- A pixel `(x, y)` seeds a vertical LINE span in the main scan. -/
def vSeed (m : Mask) (x y : Nat) : Prop :=
  m.data x y = true ∧ y < m.height - LINE_MIN_LENGTH_PX ∧
    (0.95 : ℚ) ≤ (vFeatCount m x y : ℚ) / 50

/-- Bool version of "the main-scan iteration at seed `(x, y)` paints pixel
`(k, j)` horizontally": the seed is FEATURE, the (wrapping) guard
`x < width - 50` holds, the density verdict holds, and `(k, j)` lies in
the painted span. -/
def hPaintB (f : Mask) (x y k j : Nat) : Bool :=
  f.data x y && decide (x < u32sub f.width LINE_MIN_LENGTH_PX) &&
    lineVerdict (countRight f x y) &&
    decide (j = y ∧ x ≤ k ∧ k < x + LINE_MIN_LENGTH_PX)

/-- Bool version of "the main-scan iteration at seed `(x, y)` paints pixel
`(k, j)` vertically". -/
def vPaintB (f : Mask) (x y k j : Nat) : Bool :=
  f.data x y && decide (y < u32sub f.height LINE_MIN_LENGTH_PX) &&
    lineVerdict (countDown f x y) &&
    decide (k = x ∧ y ≤ j ∧ j < y + LINE_MIN_LENGTH_PX)

/-- Pixel `(k, j)` is painted by the main scan of `detect_lines`: it lies
on the horizontal span of some horizontal seed in its row, or on the
vertical span of some vertical seed in its column.  (The bounds `j <
height` resp. `k < width` record that seeds are in-bounds mask pixels.) -/
def mainPainted (f : Mask) (k j : Nat) : Prop :=
  (j < f.height ∧ ∃ x, hSeed f x j ∧ x ≤ k ∧ k < x + LINE_MIN_LENGTH_PX) ∨
  (k < f.width ∧ ∃ y, vSeed f k y ∧ y ≤ j ∧ j < y + LINE_MIN_LENGTH_PX)

/-- `[a, b]` is a maximal horizontal run of LINE pixels in row `j`. -/
def isMaxHRun (u : Mask) (j a b : Nat) : Prop :=
  a ≤ b ∧ b < u.width ∧ j < u.height ∧
    (∀ k, a ≤ k → k ≤ b → u.data k j = true) ∧
    (a = 0 ∨ u.data (a - 1) j = false) ∧
    (b + 1 = u.width ∨ u.data (b + 1) j = false)

/-- `[a, b]` is a maximal vertical run of LINE pixels in column `k`. -/
def isMaxVRun (u : Mask) (k a b : Nat) : Prop :=
  a ≤ b ∧ b < u.height ∧ k < u.width ∧
    (∀ j, a ≤ j → j ≤ b → u.data k j = true) ∧
    (a = 0 ∨ u.data k (a - 1) = false) ∧
    (b + 1 = u.height ∨ u.data k (b + 1) = false)

/-- Claim C2 as stated: border suppression for images at least 16×16, and,
when either dimension is smaller than `FEATURE_BOUNDARY`, suppression of
the band clamped to the image size (the clamped band being the union of
the four loops' ranges with `min`-clamped resp. truncated bounds). -/
def C2_claim : Prop :=
  (∀ (gs : Rgba → Rgba) (img : Image), 16 ≤ img.width → 16 ≤ img.height →
    ∀ x y, x < img.width → y < img.height →
      (x < FEATURE_BOUNDARY ∨ img.width - FEATURE_BOUNDARY ≤ x ∨
        y < FEATURE_BOUNDARY ∨ img.height - FEATURE_BOUNDARY ≤ y) →
      (detect_features gs img).data x y = false) ∧
  (∀ (gs : Rgba → Rgba) (img : Image),
    img.width < FEATURE_BOUNDARY ∨ img.height < FEATURE_BOUNDARY →
    ∀ x y, x < img.width → y < img.height →
      (x < min FEATURE_BOUNDARY img.width ∨ img.width - FEATURE_BOUNDARY ≤ x ∨
        y < min FEATURE_BOUNDARY img.height ∨ img.height - FEATURE_BOUNDARY ≤ y) →
      (detect_features gs img).data x y = false)

/-- Claim C7 as stated: in any mask produced by `detect_lines`, every
maximal horizontal and every maximal vertical run of LINE pixels that does
not touch the left-margin-heuristic region (the columns
`x ≤ FEATURE_BOUNDARY`) has length at least `LINE_MIN_LENGTH_PX`. -/
def C7_claim : Prop :=
  ∀ f u, detect_lines f = some u →
    (∀ j a b, isMaxHRun u j a b → FEATURE_BOUNDARY < a →
      LINE_MIN_LENGTH_PX ≤ b + 1 - a) ∧
    (∀ k a b, isMaxVRun u k a b → FEATURE_BOUNDARY < k →
      LINE_MIN_LENGTH_PX ≤ b + 1 - a)

/-- Column indices `c, c+1, ..., c+n-1`, the shape of the `cur_col`
counter along one row of cells. -/
def mycols : Nat → Nat → List Nat
  | _, 0 => []
  | c, n + 1 => c :: mycols (c + 1) n

/-! ### Concrete inputs used by counterexamples and witnesses -/

/-- A 7×9 all-white image: smaller than `CELL_MIN_WIDTH_PX ×
CELL_MIN_HEIGHT_PX` in both dimensions, with no dark pixel. -/
def whiteSmallImg : Image := ⟨7, 9, fun _ _ => ⟨255, 255, 255, 255⟩⟩

/-- A 4×20 all-black image (every channel 0): its width is smaller than
`FEATURE_BOUNDARY`, and every pixel is classified FEATURE. -/
def darkImg : Image := ⟨4, 20, fun _ _ => ⟨0, 0, 0, 255⟩⟩

/-- A 16×16 all-black image. -/
def dark16 : Image := ⟨16, 16, fun _ _ => ⟨0, 0, 0, 255⟩⟩

/-- A 50×66 feature mask whose FEATURE pixels are exactly column 20, rows
8–57: the shape `detect_features` would produce from a tall vertical rule
(its borders of width 8 are BACKGROUND).  Column 20 carries a 50-pixel
vertical run, so the main scan paints a vertical line there and nothing
else (horizontal painting is impossible at width 50). -/
def cexMask : Mask :=
  ⟨50, 66, fun x y => x == 20 && decide (8 ≤ y ∧ y < 58)⟩

/-- The line mask computed by `detect_lines` on `cexMask` (the `getD`
falls back to the default mask but `detect_lines cexMask` is `some`). -/
def cexLines : Mask := (detect_lines cexMask).getD default

/-- The mask computed by the main scan alone on `cexMask`. -/
def cexMain : Mask := (mainScan cexMask).getD default

/-- A 12×3 line mask whose only LINE pixel is `(9, 1)`: row 1 triggers the
left-margin post-pass, row 0 does not. -/
def trigMask : Mask := ⟨12, 3, fun x y => x == 9 && y == 1⟩

/-- `postPass` applied to `trigMask`. -/
def trigPost : Mask := (postPass trigMask).getD default

/-- A 20×25 all-BACKGROUND line mask; `detect_cells` on it yields exactly
one cell (the whole frame, closed by the implicit border rules). -/
def m20 : Mask := ⟨20, 25, fun _ _ => false⟩

/-! ### Helper lemmas -/

set_option maxRecDepth 40000

theorem Mask.eqOf {m1 m2 : Mask} (h1 : m1.width = m2.width)
    (h2 : m1.height = m2.height) (h3 : ∀ k j, m1.data k j = m2.data k j) :
    m1 = m2 := by
  obtain ⟨w1, ht1, d1⟩ := m1
  obtain ⟨w2, ht2, d2⟩ := m2
  simp only at h1 h2
  subst h1; subst h2
  have : d1 = d2 := by funext k j; exact h3 k j
  rw [this]

theorem u32sub_of_le {a b : Nat} (h : b ≤ a) : u32sub a b = a - b := by
  unfold u32sub; rw [if_pos h]

theorem count_foldl_eq (p : Nat → Bool) (n : Nat) :
    (List.range n).foldl (fun c k => if p k then c + 1 else c) 0 =
      ((Finset.range n).filter fun k => p k = true).card := by
  induction n with
  | zero => simp
  | succ n ih =>
    rw [List.range_succ, List.foldl_append, ih, Finset.range_succ,
      Finset.filter_insert]
    by_cases h : p n = true
    · rw [if_pos h, Finset.card_insert_of_not_mem (by simp)]
      simp [h]
    · rw [if_neg h]
      simp [h]

theorem countRight_eq (m : Mask) (x y : Nat) :
    countRight m x y = hFeatCount m x y :=
  count_foldl_eq (fun k => m.data (x + k) y) LINE_MIN_LENGTH_PX

theorem countDown_eq (m : Mask) (x y : Nat) :
    countDown m x y = vFeatCount m x y :=
  count_foldl_eq (fun k => m.data x (y + k)) LINE_MIN_LENGTH_PX

theorem lineVerdict_iff (c : Nat) :
    lineVerdict c = true ↔ (0.95 : ℚ) ≤ (c : ℚ) / 50 := by
  unfold lineVerdict LINE_MIN_LENGTH_PX
  rw [decide_eq_true_eq]
  have h1 : ((0.95 : ℚ) ≤ (c : ℚ) / 50) ↔ ((950 : ℚ) ≤ 20 * (c : ℚ)) := by
    constructor <;> intro h <;> linarith
  have h2 : ((950 : ℚ) = ((950 : Nat) : ℚ)) := by norm_num
  have h3 : ((20 : ℚ) * (c : ℚ) = ((20 * c : Nat) : ℚ)) := by push_cast; ring
  rw [h1, h2, h3, Nat.cast_le]

/-! ### Claims C1, C2, C3, C5 -/

/-- C1: the spec says the internal stages are total, and that an image
smaller than `CELL_MIN_WIDTH_PX × CELL_MIN_HEIGHT_PX` yields an empty cell
list with no out-of-bounds pixel access.  The code disagrees: on the 7×9
all-white image, `detect_lines`'s left-margin post-pass unconditionally
reads pixel `(FEATURE_BOUNDARY + 1, 0) = (9, 0)`, which is out of bounds
for width 7, so the run panics (modelled by `none`) instead of returning
an empty list. -/
theorem C1_small_image_panics : get_cells id whiteSmallImg = none := by rfl

/-- C2, as frozen, is false on the code: `detect_features` returns early
with NO border suppression whenever either dimension is smaller than
`FEATURE_BOUNDARY`; the claim instead asserts a clamped suppressed band.
The 4×20 all-black image refutes it: its pixel `(0, 0)` lies in the
clamped band yet stays FEATURE. -/
theorem C2_counterexample : ¬ C2_claim := by
  intro h
  have h2 := h.2 id darkImg (Or.inl (by decide)) 0 0 (by decide) (by decide)
    (Or.inl (by decide))
  exact absurd h2 (by decide)

/-- C2 (amended): for images at least 16×16 every pixel within
`FEATURE_BOUNDARY` of any edge is BACKGROUND regardless of its darkness
classification; when either dimension is smaller than `FEATURE_BOUNDARY`,
border suppression is skipped entirely and `detect_features` returns the
raw darkness classification unchanged. -/
theorem C2_border_suppression :
    (∀ (gs : Rgba → Rgba) (img : Image), 16 ≤ img.width → 16 ≤ img.height →
      ∀ x y, x < img.width → y < img.height →
        (x < FEATURE_BOUNDARY ∨ img.width - FEATURE_BOUNDARY ≤ x ∨
          y < FEATURE_BOUNDARY ∨ img.height - FEATURE_BOUNDARY ≤ y) →
        (detect_features gs img).data x y = false) ∧
    (∀ (gs : Rgba → Rgba) (img : Image),
      img.width < FEATURE_BOUNDARY ∨ img.height < FEATURE_BOUNDARY →
      ∀ x y, (detect_features gs img).data x y =
        could_be_feature (gs (img.data x y))) := by
  constructor
  · intro gs img hw16 hh16 x y hx hy hband
    unfold detect_features
    rw [if_neg (by unfold FEATURE_BOUNDARY; omega)]
    dsimp only
    unfold FEATURE_BOUNDARY at hband ⊢
    rw [Nat.min_eq_left (by omega), Nat.min_eq_left (by omega)]
    split_ifs <;> first | rfl | omega
  · intro gs img hsmall x y
    unfold detect_features
    rw [if_pos hsmall]
    rfl

/-- C2 witness: the amended theorem applied at concrete inputs (the 16×16
all-black image for the suppression part, the 4×20 all-black image for
the skip part). -/
theorem C2_border_suppression_witness :
    (detect_features id dark16).data 0 0 = false ∧
    (detect_features id darkImg).data 0 0 =
      could_be_feature (id (darkImg.data 0 0)) :=
  ⟨C2_border_suppression.1 id dark16 (by decide) (by decide) 0 0 (by decide)
      (by decide) (Or.inl (by decide)),
    C2_border_suppression.2 id darkImg (Or.inl (by decide)) 0 0⟩

/-- C3: after the row loop a trailing row spanning
`[prev_y, height − 1)` is emitted iff the strip between the last row
boundary and the bottom border has height at least `CELL_MIN_HEIGHT_PX`;
after the column loop of a row, a trailing cell reaching `width − 1` is
emitted iff the remaining width from `prev_x` to the image's right edge is
at least `CELL_MIN_WIDTH_PX`, and otherwise no trailing cell is emitted. -/
theorem C3_trailing_emission (lines : Mask) :
    (∀ fuel y prev_y r, lines.height ≤ y →
      rowScan lines fuel y prev_y r =
        if CELL_MIN_HEIGHT_PX ≤ lines.height - 1 - prev_y then
          detect_cells_in_row lines r prev_y (lines.height - 1)
        else []) ∧
    (∀ r cy ch cym fuel x prev_x c, lines.width ≤ x →
      cellScan lines r cy ch cym fuel x prev_x c =
        if CELL_MIN_WIDTH_PX ≤ lines.width - 1 - prev_x then
          [⟨r, c, prev_x, cy, lines.width - prev_x - 1, ch⟩]
        else []) := by
  constructor
  · intro fuel y prev_y r hy
    have hbase : rowScan lines fuel y prev_y r = rowTrailing lines prev_y r := by
      cases fuel with
      | zero => rfl
      | succ n =>
        simp only [rowScan]
        rw [if_neg (by omega)]
    rw [hbase]
    unfold rowTrailing CELL_MIN_HEIGHT_PX
    by_cases h : prev_y + 10 < lines.height
    · rw [if_pos h, if_pos (by omega)]
    · rw [if_neg h, if_neg (by omega)]
  · intro r cy ch cym fuel x prev_x c hx
    have hbase : cellScan lines r cy ch cym fuel x prev_x c =
        cellTrailing lines r cy ch prev_x c := by
      cases fuel with
      | zero => rfl
      | succ n =>
        simp only [cellScan]
        rw [if_neg (by omega)]
    rw [hbase]
    unfold cellTrailing CELL_MIN_WIDTH_PX
    by_cases h : prev_x + 8 < lines.width
    · rw [if_pos h, if_pos (by omega)]
    · rw [if_neg h, if_neg (by omega)]

/-- C3 witness: both parts applied on the 20×25 all-BACKGROUND mask with
the scan cursor already past the end. -/
theorem C3_trailing_emission_witness :
    (rowScan m20 5 30 25 1 =
      if CELL_MIN_HEIGHT_PX ≤ m20.height - 1 - 25 then
        detect_cells_in_row m20 1 25 (m20.height - 1)
      else []) ∧
    (cellScan m20 0 0 23 11 4 21 0 0 =
      if CELL_MIN_WIDTH_PX ≤ m20.width - 1 - 0 then
        [⟨0, 0, 0, 0, m20.width - 0 - 1, 23⟩]
      else []) :=
  ⟨(C3_trailing_emission m20).1 5 30 25 1 (by decide),
    (C3_trailing_emission m20).2 0 0 23 11 4 21 0 0 (by decide)⟩

/-- C5: a pixel is classified FEATURE by the classification step of
`detect_features` iff all three channel values of its grayscale pixel are
at most 130; a pixel with any channel equal to 131 is BACKGROUND, and one
with all channels exactly 130 is FEATURE (inclusive boundary). -/
theorem C5_darkness_threshold :
    (∀ (gs : Rgba → Rgba) (img : Image) (x y : Nat),
      (classify gs img).data x y = true ↔
        (gs (img.data x y)).r ≤ 130 ∧ (gs (img.data x y)).g ≤ 130 ∧
          (gs (img.data x y)).b ≤ 130) ∧
    (∀ px : Rgba, px.r = 131 ∨ px.g = 131 ∨ px.b = 131 →
      could_be_feature px = false) ∧
    could_be_feature ⟨130, 130, 130, 255⟩ = true := by
  refine ⟨?_, ?_, rfl⟩
  · intro gs img x y
    simp [classify, could_be_feature, and_assoc]
  · intro px h
    rcases h with h | h | h <;> simp [could_be_feature, h]

/-- C5 witness: the boundary facts at concrete pixels. -/
theorem C5_darkness_threshold_witness :
    could_be_feature ⟨131, 0, 0, 255⟩ = false ∧
    could_be_feature ⟨130, 130, 130, 255⟩ = true :=
  ⟨C5_darkness_threshold.2.1 ⟨131, 0, 0, 255⟩ (Or.inl rfl),
    C5_darkness_threshold.2.2⟩

theorem optBind_some {α β : Type} (a : α) (g : α → Option β) :
    (Option.bind (some a) g) = g a := rfl

theorem optMap_some {α β : Type} (a : α) (g : α → β) :
    (Option.map g (some a)) = some (g a) := rfl

theorem paintRight_data (t : Mask) (x y k j : Nat) :
    (paintRight t x y).data k j =
      (t.data k j || decide (j = y ∧ x ≤ k ∧ k < x + LINE_MIN_LENGTH_PX)) := by
  unfold paintRight
  dsimp only
  by_cases h : j = y ∧ x ≤ k ∧ k < x + LINE_MIN_LENGTH_PX
  · simp [h]
  · simp [h]

theorem paintDown_data (t : Mask) (x y k j : Nat) :
    (paintDown t x y).data k j =
      (t.data k j || decide (k = x ∧ y ≤ j ∧ j < y + LINE_MIN_LENGTH_PX)) := by
  unfold paintDown
  dsimp only
  by_cases h : k = x ∧ y ≤ j ∧ j < y + LINE_MIN_LENGTH_PX
  · simp [h]
  · simp [h]

theorem paintLeftMargin_data (t : Mask) (y k j : Nat) :
    (paintLeftMargin t y).data k j =
      (t.data k j || decide (j = y ∧ k < FEATURE_BOUNDARY + 1)) := by
  unfold paintLeftMargin
  dsimp only
  by_cases h : j = y ∧ k < FEATURE_BOUNDARY + 1
  · simp [h]
  · simp [h]

theorem step_core (t : Mask) (x y : Nat) (bh bv : Bool) :
    (let t1 := if bh then paintRight t x y else t
     if bv then paintDown t1 x y else t1) =
      ⟨t.width, t.height, fun k j =>
        t.data k j ||
          (bh && decide (j = y ∧ x ≤ k ∧ k < x + LINE_MIN_LENGTH_PX)) ||
          (bv && decide (k = x ∧ y ≤ j ∧ j < y + LINE_MIN_LENGTH_PX))⟩ := by
  cases bh <;> cases bv <;>
    exact Mask.eqOf rfl rfl fun k j => by
      simp [paintRight_data, paintDown_data]

theorem lineScanStep_eq (f t : Mask) (x y : Nat)
    (hw : LINE_MIN_LENGTH_PX ≤ f.width) (hh : LINE_MIN_LENGTH_PX ≤ f.height)
    (hx : x < f.width) (hy : y < f.height) :
    lineScanStep f t x y =
      some ⟨t.width, t.height, fun k j =>
        t.data k j || hPaintB f x y k j || vPaintB f x y k j⟩ := by
  have hwsub : u32sub f.width LINE_MIN_LENGTH_PX = f.width - LINE_MIN_LENGTH_PX :=
    u32sub_of_le hw
  have hhsub : u32sub f.height LINE_MIN_LENGTH_PX = f.height - LINE_MIN_LENGTH_PX :=
    u32sub_of_le hh
  unfold lineScanStep
  cases hf : f.data x y with
  | false =>
    rw [if_neg (by simp [hf])]
    congr 1
    exact Mask.eqOf rfl rfl fun k j => by simp [hPaintB, vPaintB, hf]
  | true =>
    rw [if_pos rfl]
    have hH : dirCheckH f x y =
        some (decide (x < u32sub f.width LINE_MIN_LENGTH_PX) &&
          lineVerdict (countRight f x y)) := by
      unfold dirCheckH
      by_cases hg : x < u32sub f.width LINE_MIN_LENGTH_PX
      · rw [if_pos hg]
        unfold is_line_to_right
        rw [if_pos ⟨by rw [hwsub] at hg; omega, hy⟩]
        simp [hg]
      · rw [if_neg hg]
        simp [hg]
    have hV : dirCheckV f x y =
        some (decide (y < u32sub f.height LINE_MIN_LENGTH_PX) &&
          lineVerdict (countDown f x y)) := by
      unfold dirCheckV
      by_cases hg : y < u32sub f.height LINE_MIN_LENGTH_PX
      · rw [if_pos hg]
        unfold is_line_downward
        rw [if_pos ⟨hx, by rw [hhsub] at hg; omega⟩]
        simp [hg]
      · rw [if_neg hg]
        simp [hg]
    rw [hH, optBind_some, hV, optMap_some, step_core]
    congr 1
    exact Mask.eqOf rfl rfl fun k j => by
      simp [hPaintB, vPaintB, hf, Bool.and_assoc]

theorem innerFold_eq (f : Mask)
    (hw : LINE_MIN_LENGTH_PX ≤ f.width) (hh : LINE_MIN_LENGTH_PX ≤ f.height)
    (y : Nat) (hy : y < f.height) :
    ∀ (n : Nat), n ≤ f.width → ∀ (t : Mask),
      (List.range n).foldlM (fun t2 x => lineScanStep f t2 x y) t =
        some ⟨t.width, t.height, fun k j =>
          t.data k j ||
            ((List.range n).any fun x => hPaintB f x y k j || vPaintB f x y k j)⟩ := by
  intro n
  induction n with
  | zero =>
    intro _ t
    simp only [List.range_zero, List.foldlM_nil]
    congr 1
    exact Mask.eqOf rfl rfl fun k j => by simp
  | succ n ih =>
    intro hn t
    rw [List.range_succ, List.foldlM_append, ih (by omega) t]
    show Option.bind _ _ = _
    rw [optBind_some]
    simp only [List.foldlM_cons, List.foldlM_nil]
    rw [lineScanStep_eq f _ n y hw hh (by omega) hy]
    show Option.bind _ _ = _
    rw [optBind_some]
    show some _ = some _
    congr 1
    exact Mask.eqOf rfl rfl fun k j => by
      simp [List.any_append, Bool.or_assoc]

theorem outerFold_eq (f : Mask)
    (hw : LINE_MIN_LENGTH_PX ≤ f.width) (hh : LINE_MIN_LENGTH_PX ≤ f.height) :
    ∀ (n : Nat), n ≤ f.height → ∀ (t : Mask),
      (List.range n).foldlM
        (fun t2 y => (List.range f.width).foldlM
          (fun t3 x => lineScanStep f t3 x y) t2) t =
        some ⟨t.width, t.height, fun k j =>
          t.data k j ||
            ((List.range n).any fun y =>
              (List.range f.width).any fun x =>
                hPaintB f x y k j || vPaintB f x y k j)⟩ := by
  intro n
  induction n with
  | zero =>
    intro _ t
    simp only [List.range_zero, List.foldlM_nil]
    congr 1
    exact Mask.eqOf rfl rfl fun k j => by simp
  | succ n ih =>
    intro hn t
    rw [List.range_succ, List.foldlM_append, ih (by omega) t]
    show Option.bind _ _ = _
    rw [optBind_some]
    simp only [List.foldlM_cons, List.foldlM_nil]
    rw [innerFold_eq f hw hh n (by omega) f.width le_rfl]
    show Option.bind _ _ = _
    rw [optBind_some]
    show some _ = some _
    congr 1
    exact Mask.eqOf rfl rfl fun k j => by
      simp [List.any_append, Bool.or_assoc]

theorem mainScan_eq (f : Mask)
    (hw : LINE_MIN_LENGTH_PX ≤ f.width) (hh : LINE_MIN_LENGTH_PX ≤ f.height) :
    mainScan f = some ⟨f.width, f.height, fun k j =>
      (List.range f.height).any fun y =>
        (List.range f.width).any fun x =>
          hPaintB f x y k j || vPaintB f x y k j⟩ := by
  unfold mainScan
  rw [outerFold_eq f hw hh f.height le_rfl]
  exact congrArg some (Mask.eqOf rfl rfl fun k j => by simp)

theorem hPaintB_iff (f : Mask) (hw : LINE_MIN_LENGTH_PX ≤ f.width)
    (x y k j : Nat) :
    hPaintB f x y k j = true ↔
      (j = y ∧ hSeed f x y ∧ x ≤ k ∧ k < x + LINE_MIN_LENGTH_PX) := by
  unfold hPaintB hSeed
  rw [u32sub_of_le hw]
  simp only [Bool.and_eq_true, decide_eq_true_eq, lineVerdict_iff, countRight_eq]
  tauto

theorem vPaintB_iff (f : Mask) (hh : LINE_MIN_LENGTH_PX ≤ f.height)
    (x y k j : Nat) :
    vPaintB f x y k j = true ↔
      (k = x ∧ vSeed f x y ∧ y ≤ j ∧ j < y + LINE_MIN_LENGTH_PX) := by
  unfold vPaintB vSeed
  rw [u32sub_of_le hh]
  simp only [Bool.and_eq_true, decide_eq_true_eq, lineVerdict_iff, countDown_eq]
  tauto

theorem mainScan_painted (f t : Mask)
    (hw : LINE_MIN_LENGTH_PX ≤ f.width) (hh : LINE_MIN_LENGTH_PX ≤ f.height)
    (ht : mainScan f = some t) :
    t.width = f.width ∧ t.height = f.height ∧
      ∀ k j, (t.data k j = true ↔ mainPainted f k j) := by
  rw [mainScan_eq f hw hh] at ht
  have heq := Option.some.inj ht
  subst heq
  refine ⟨rfl, rfl, ?_⟩
  intro k j
  dsimp only
  simp only [List.any_eq_true, List.mem_range, Bool.or_eq_true,
    hPaintB_iff f hw, vPaintB_iff f hh]
  unfold mainPainted
  constructor
  · rintro ⟨y0, hy0, x0, hx0, ⟨rfl, hseed, hsp1, hsp2⟩ | ⟨rfl, hseed, hsp1, hsp2⟩⟩
    · exact Or.inl ⟨hy0, x0, hseed, hsp1, hsp2⟩
    · exact Or.inr ⟨hx0, y0, hseed, hsp1, hsp2⟩
  · rintro (⟨hj, x0, hseed, hsp1, hsp2⟩ | ⟨hk, y0, hseed, hsp1, hsp2⟩)
    · have hx0w : x0 < f.width := by
        have := hseed.2.1
        omega
      exact ⟨j, hj, x0, hx0w, Or.inl ⟨rfl, hseed, hsp1, hsp2⟩⟩
    · have hy0h : y0 < f.height := by
        have := hseed.2.1
        omega
      exact ⟨y0, hy0h, k, hk, Or.inr ⟨rfl, hseed, hsp1, hsp2⟩⟩

theorem postPassFold_eq (t : Mask) (h9 : FEATURE_BOUNDARY + 1 < t.width) :
    ∀ (n : Nat), n ≤ t.height → ∀ (u : Mask), u.width = t.width →
      u.height = t.height →
      (∀ j, u.data (FEATURE_BOUNDARY + 1) j = t.data (FEATURE_BOUNDARY + 1) j) →
      (List.range n).foldlM
        (fun t2 y => (readPix t2 (FEATURE_BOUNDARY + 1) y).map
          fun b => if b then paintLeftMargin t2 y else t2) u =
        some ⟨u.width, u.height, fun k j =>
          u.data k j || (decide (j < n) && t.data (FEATURE_BOUNDARY + 1) j &&
            decide (k < FEATURE_BOUNDARY + 1))⟩ := by
  intro n
  induction n with
  | zero =>
    intro _ u _ _ _
    simp only [List.range_zero, List.foldlM_nil]
    exact congrArg some (Mask.eqOf rfl rfl fun k j => by simp)
  | succ n ih =>
    intro hn u hu1 hu2 hu3
    rw [List.range_succ, List.foldlM_append, ih (by omega) u hu1 hu2 hu3]
    show Option.bind _ _ = _
    rw [optBind_some]
    simp only [List.foldlM_cons, List.foldlM_nil]
    have hread : readPix (⟨u.width, u.height, fun k j =>
        u.data k j || (decide (j < n) && t.data (FEATURE_BOUNDARY + 1) j &&
          decide (k < FEATURE_BOUNDARY + 1))⟩ : Mask)
        (FEATURE_BOUNDARY + 1) n = some (t.data (FEATURE_BOUNDARY + 1) n) := by
      unfold readPix
      rw [if_pos ⟨by dsimp only; omega, by dsimp only; omega⟩]
      dsimp only
      rw [hu3 n]
      simp
    rw [hread, optMap_some]
    show Option.bind _ _ = _
    rw [optBind_some]
    cases hb : t.data (FEATURE_BOUNDARY + 1) n with
    | true =>
      rw [if_pos rfl]
      show some _ = some _
      refine congrArg some (Mask.eqOf rfl rfl fun k j => ?_)
      rw [paintLeftMargin_data]
      dsimp only
      rw [Bool.eq_iff_iff]
      simp only [Bool.or_eq_true, Bool.and_eq_true, decide_eq_true_eq]
      constructor
      · rintro ((hu | ⟨⟨hjn, hT⟩, hk⟩) | ⟨hjn, hk⟩)
        · exact Or.inl hu
        · exact Or.inr ⟨⟨by omega, hT⟩, hk⟩
        · subst hjn
          exact Or.inr ⟨⟨by omega, hb⟩, hk⟩
      · rintro (hu | ⟨⟨hjn1, hT⟩, hk⟩)
        · exact Or.inl (Or.inl hu)
        · by_cases hjn : j = n
          · exact Or.inr ⟨hjn, hk⟩
          · exact Or.inl (Or.inr ⟨⟨by omega, hT⟩, hk⟩)
    | false =>
      rw [if_neg (by simp)]
      show some _ = some _
      refine congrArg some (Mask.eqOf rfl rfl fun k j => ?_)
      dsimp only
      rw [Bool.eq_iff_iff]
      simp only [Bool.or_eq_true, Bool.and_eq_true, decide_eq_true_eq]
      constructor
      · rintro (hu | ⟨⟨hjn, hT⟩, hk⟩)
        · exact Or.inl hu
        · exact Or.inr ⟨⟨by omega, hT⟩, hk⟩
      · rintro (hu | ⟨⟨hjn1, hT⟩, hk⟩)
        · exact Or.inl hu
        · by_cases hjn : j = n
          · subst hjn
            rw [hT] at hb
            cases hb
          · exact Or.inr ⟨⟨by omega, hT⟩, hk⟩

theorem postPass_eq (t : Mask) (h9 : FEATURE_BOUNDARY + 1 < t.width) :
    postPass t = some ⟨t.width, t.height, fun k j =>
      t.data k j || (decide (j < t.height) && t.data (FEATURE_BOUNDARY + 1) j &&
        decide (k < FEATURE_BOUNDARY + 1))⟩ := by
  unfold postPass
  exact postPassFold_eq t h9 t.height le_rfl t rfl rfl (fun _ => rfl)

theorem detect_lines_eq (f : Mask)
    (hw : LINE_MIN_LENGTH_PX ≤ f.width) (hh : LINE_MIN_LENGTH_PX ≤ f.height) :
    ∃ t u, mainScan f = some t ∧ detect_lines f = some u ∧
      u.width = f.width ∧ u.height = f.height ∧
      (∀ k j, (t.data k j = true ↔ mainPainted f k j)) ∧
      (∀ k j, u.data k j =
        (t.data k j || (decide (j < f.height) &&
          t.data (FEATURE_BOUNDARY + 1) j &&
          decide (k < FEATURE_BOUNDARY + 1)))) := by
  obtain ⟨t, ht⟩ : ∃ t, mainScan f = some t := ⟨_, mainScan_eq f hw hh⟩
  obtain ⟨htw, hth, hchar⟩ := mainScan_painted f t hw hh ht
  have h9 : FEATURE_BOUNDARY + 1 < t.width := by
    rw [htw]
    unfold FEATURE_BOUNDARY
    unfold LINE_MIN_LENGTH_PX at hw
    omega
  refine ⟨t, ⟨t.width, t.height, fun k j =>
      t.data k j || (decide (j < t.height) && t.data (FEATURE_BOUNDARY + 1) j &&
        decide (k < FEATURE_BOUNDARY + 1))⟩, ht, ?_, ?_, ?_, hchar, ?_⟩
  · unfold detect_lines
    rw [ht]
    show Option.bind _ _ = _
    rw [optBind_some]
    exact postPass_eq t h9
  · exact htw
  · exact hth
  · intro k j
    dsimp only
    rw [hth]

/-- C4: `is_line_to_right` (resp. `is_line_downward`) succeeds with `true`
iff the fraction of FEATURE pixels among the 50 pixels extending in `+x`
(resp. `+y`) is at least 0.95; and the mask built by the main scan of
`detect_lines` holds LINE at exactly the pixels covered by the span of
some seed that is FEATURE, passes the `x < width − 50` (resp.
`y < height − 50`) guard, and passes the density predicate — painting is
purely additive, so a pixel is LINE iff some span covers it. -/
theorem C4_line_predicate_and_painting (f t : Mask)
    (hw : LINE_MIN_LENGTH_PX ≤ f.width) (hh : LINE_MIN_LENGTH_PX ≤ f.height)
    (ht : mainScan f = some t) :
    (∀ x y, x + LINE_MIN_LENGTH_PX ≤ f.width → y < f.height →
      (is_line_to_right f x y = some true ↔
        (0.95 : ℚ) ≤ (hFeatCount f x y : ℚ) / 50)) ∧
    (∀ x y, y + LINE_MIN_LENGTH_PX ≤ f.height → x < f.width →
      (is_line_downward f x y = some true ↔
        (0.95 : ℚ) ≤ (vFeatCount f x y : ℚ) / 50)) ∧
    (∀ k j, k < f.width → j < f.height →
      (t.data k j = true ↔
        (∃ x, hSeed f x j ∧ x ≤ k ∧ k < x + LINE_MIN_LENGTH_PX) ∨
        (∃ y, vSeed f k y ∧ y ≤ j ∧ j < y + LINE_MIN_LENGTH_PX))) := by
  obtain ⟨-, -, hchar⟩ := mainScan_painted f t hw hh ht
  refine ⟨?_, ?_, ?_⟩
  · intro x y hx hy
    unfold is_line_to_right
    rw [if_pos ⟨hx, hy⟩, Option.some.injEq, lineVerdict_iff, countRight_eq]
  · intro x y hy hx
    unfold is_line_downward
    rw [if_pos ⟨hx, hy⟩, Option.some.injEq, lineVerdict_iff, countDown_eq]
  · intro k j hk hj
    rw [hchar k j]
    unfold mainPainted
    constructor
    · rintro (⟨-, h⟩ | ⟨-, h⟩)
      · exact Or.inl h
      · exact Or.inr h
    · rintro (h | h)
      · exact Or.inl ⟨hj, h⟩
      · exact Or.inr ⟨hk, h⟩

/-- C4 witness: the theorem applied on the concrete 50×66 mask `cexMask`
(all hypotheses discharged; `cexMain` is the main-scan output). -/
theorem C4_line_predicate_and_painting_witness :
    (is_line_to_right cexMask 0 8 = some true ↔
      (0.95 : ℚ) ≤ (hFeatCount cexMask 0 8 : ℚ) / 50) ∧
    (cexMain.data 20 25 = true ↔
      (∃ x, hSeed cexMask x 25 ∧ x ≤ 20 ∧ 20 < x + LINE_MIN_LENGTH_PX) ∨
      (∃ y, vSeed cexMask 20 y ∧ y ≤ 25 ∧ 25 < y + LINE_MIN_LENGTH_PX)) :=
  ⟨(C4_line_predicate_and_painting cexMask cexMain (by decide) (by decide)
      rfl).1 0 8 (by decide) (by decide),
    (C4_line_predicate_and_painting cexMask cexMain (by decide) (by decide)
      rfl).2.2 20 25 (by decide) (by decide)⟩

/-- C6: in the post-pass of `detect_lines`, for every row `y` whose
trigger pixel `(FEATURE_BOUNDARY + 1, y)` is LINE, the pixels at
`x = 0 .. FEATURE_BOUNDARY` of that row are painted LINE; rows whose
trigger pixel is not LINE are left entirely unchanged. -/
theorem C6_left_margin_postpass (t u : Mask)
    (h9 : FEATURE_BOUNDARY + 1 < t.width) (hu : postPass t = some u) :
    ∀ y, y < t.height →
      (t.data (FEATURE_BOUNDARY + 1) y = true →
        ∀ x, x ≤ FEATURE_BOUNDARY → u.data x y = true) ∧
      (t.data (FEATURE_BOUNDARY + 1) y = false →
        ∀ x, u.data x y = t.data x y) := by
  rw [postPass_eq t h9] at hu
  have heq := Option.some.inj hu
  subst heq
  intro y hy
  constructor
  · intro htrig x hx
    dsimp only
    rw [htrig]
    have h1 : decide (y < t.height) = true := by
      rw [decide_eq_true_eq]
      exact hy
    have h2 : decide (x < FEATURE_BOUNDARY + 1) = true := by
      rw [decide_eq_true_eq]
      omega
    rw [h1, h2]
    simp
  · intro htrig x
    dsimp only
    rw [htrig]
    simp

/-- C6 witness: the theorem applied on the concrete 12×3 mask `trigMask`
whose only LINE pixel is the trigger `(9, 1)`. -/
theorem C6_left_margin_postpass_witness :
    trigPost.data 3 1 = true ∧ trigPost.data 5 0 = trigMask.data 5 0 :=
  ⟨(C6_left_margin_postpass trigMask trigPost (by decide) rfl 1 (by decide)).1
      rfl 3 (by decide),
    (C6_left_margin_postpass trigMask trigPost (by decide) rfl 0 (by decide)).2
      rfl 5⟩

/-- C7, as frozen, is false on the code: a vertical painted line crosses
each of its rows as a maximal horizontal run of length 1.  On `cexMask`
the main scan paints only column 20 (rows 8–59); at row 25 the pixels
19, 20, 21 are BACKGROUND, LINE, BACKGROUND, so `[20, 20]` is a maximal
horizontal run of length 1 < 50 that does not touch the left-margin
region. -/
theorem C7_counterexample : ¬ C7_claim := by
  intro h
  have hrun : isMaxHRun cexLines 25 20 20 := by
    refine ⟨le_rfl, by decide, by decide, ?_, Or.inr (by rfl), Or.inr (by rfl)⟩
    intro k hk1 hk2
    have hk : k = 20 := le_antisymm hk2 hk1
    subst hk
    rfl
  have hlen := (h cexMask cexLines rfl).1 25 20 20 hrun (by decide)
  exact absurd hlen (by decide)

/-- C7 (amended): in the mask returned by `detect_lines`, every LINE
pixel lies on a horizontal run of 50 consecutive LINE pixels or on a
vertical run of 50 consecutive LINE pixels, or lies in the left-margin
heuristic region `x ≤ FEATURE_BOUNDARY`.  (The frozen per-maximal-run
form fails because a vertical line meets a row in a length-1 horizontal
run; this per-pixel form is the other invariant stated by the spec.) -/
theorem C7_line_length_bound (f u : Mask)
    (hw : LINE_MIN_LENGTH_PX ≤ f.width) (hh : LINE_MIN_LENGTH_PX ≤ f.height)
    (hu : detect_lines f = some u) (k j : Nat) (hkj : u.data k j = true) :
    k ≤ FEATURE_BOUNDARY ∨
    (∃ a, a ≤ k ∧ k < a + LINE_MIN_LENGTH_PX ∧
      ∀ i, i < LINE_MIN_LENGTH_PX → u.data (a + i) j = true) ∨
    (∃ b, b ≤ j ∧ j < b + LINE_MIN_LENGTH_PX ∧
      ∀ i, i < LINE_MIN_LENGTH_PX → u.data k (b + i) = true) := by
  obtain ⟨t, u', ht, hu', huw, huh, hchar, hdata⟩ := detect_lines_eq f hw hh
  have heq : u' = u := by
    rw [hu'] at hu
    exact Option.some.inj hu
  subst heq
  by_cases hkm : k ≤ FEATURE_BOUNDARY
  · exact Or.inl hkm
  have hkj2 := hkj
  rw [hdata k j] at hkj2
  have hd9 : decide (k < FEATURE_BOUNDARY + 1) = false := by
    rw [decide_eq_false_iff_not]
    omega
  rw [hd9, Bool.and_false, Bool.or_false] at hkj2
  rw [hchar k j] at hkj2
  rcases hkj2 with ⟨hj, x0, hseed, hx0k, hk0⟩ | ⟨hk, y0, hseed, hy0j, hj0⟩
  · refine Or.inr (Or.inl ⟨x0, hx0k, hk0, ?_⟩)
    intro i hi
    have hp : t.data (x0 + i) j = true := by
      rw [hchar (x0 + i) j]
      exact Or.inl ⟨hj, x0, hseed, by omega, by omega⟩
    rw [hdata (x0 + i) j, hp, Bool.true_or]
  · refine Or.inr (Or.inr ⟨y0, hy0j, hj0, ?_⟩)
    intro i hi
    have hp : t.data k (y0 + i) = true := by
      rw [hchar k (y0 + i)]
      exact Or.inr ⟨hk, y0, hseed, by omega, by omega⟩
    rw [hdata k (y0 + i), hp, Bool.true_or]

/-- C7 witness: the amended theorem applied at the LINE pixel `(20, 25)`
of the line mask computed from `cexMask`. -/
theorem C7_line_length_bound_witness :
    20 ≤ FEATURE_BOUNDARY ∨
    (∃ a, a ≤ 20 ∧ 20 < a + LINE_MIN_LENGTH_PX ∧
      ∀ i, i < LINE_MIN_LENGTH_PX → cexLines.data (a + i) 25 = true) ∨
    (∃ b, b ≤ 25 ∧ 25 < b + LINE_MIN_LENGTH_PX ∧
      ∀ i, i < LINE_MIN_LENGTH_PX → cexLines.data 20 (b + i) = true) :=
  C7_line_length_bound cexMask cexLines (by decide) (by decide) rfl 20 25 rfl

/-- C10: if the bottom `FEATURE_BOUNDARY` rows and the rightmost
`FEATURE_BOUNDARY` columns of the feature mask are entirely BACKGROUND
(as `detect_features` guarantees for images at least 16 pixels in each
dimension), then the mask returned by `detect_lines` has its bottom row
`y = height − 1` and its rightmost column `x = width − 1` entirely
BACKGROUND — so the implicit bottom-edge and right-edge rules of
`detect_cells` never coincide with a painted LINE pixel. -/
theorem C10_borders_stay_background (f u : Mask)
    (hw : LINE_MIN_LENGTH_PX ≤ f.width) (hh : LINE_MIN_LENGTH_PX ≤ f.height)
    (hR : ∀ x y, f.width - FEATURE_BOUNDARY ≤ x → x < f.width → y < f.height →
      f.data x y = false)
    (hB : ∀ x y, x < f.width → f.height - FEATURE_BOUNDARY ≤ y → y < f.height →
      f.data x y = false)
    (hu : detect_lines f = some u) :
    (∀ x, u.data x (f.height - 1) = false) ∧
    (∀ y, u.data (f.width - 1) y = false) := by
  have hF : FEATURE_BOUNDARY = 8 := rfl
  have hL : LINE_MIN_LENGTH_PX = 50 := rfl
  rw [hL] at hw hh
  rw [hF] at hR hB
  obtain ⟨t, u', ht, hu', huw, huh, hchar, hdata⟩ := detect_lines_eq f
    (by rw [hL]; omega) (by rw [hL]; omega)
  have heq : u' = u := by
    rw [hu'] at hu
    exact Option.some.inj hu
  subst heq
  have hbot : ∀ x, t.data x (f.height - 1) = false := by
    intro x
    by_contra hx
    rw [Bool.not_eq_false, hchar] at hx
    rcases hx with ⟨hj, x0, hseed, hsp1, hsp2⟩ | ⟨hk, y0, hseed, hsp1, hsp2⟩
    · have hx0w : x0 < f.width := by
        have := hseed.2.1
        omega
      have hbg := hB x0 (f.height - 1) hx0w (by omega) (by omega)
      rw [hseed.1] at hbg
      cases hbg
    · have hy0 := hseed.2.1
      rw [hL] at hy0 hsp2
      omega
  have hright : ∀ y, t.data (f.width - 1) y = false := by
    intro y
    by_contra hx
    rw [Bool.not_eq_false, hchar] at hx
    rcases hx with ⟨hj, x0, hseed, hsp1, hsp2⟩ | ⟨hk, y0, hseed, hsp1, hsp2⟩
    · have hx0 := hseed.2.1
      rw [hL] at hx0 hsp2
      omega
    · have hy0 : y0 < f.height := by
        have := hseed.2.1
        omega
      have hbg := hR (f.width - 1) y0 (by omega) (by omega) hy0
      rw [hseed.1] at hbg
      cases hbg
  constructor
  · intro x
    rw [hdata x (f.height - 1), hbot x, hbot (FEATURE_BOUNDARY + 1)]
    simp
  · intro y
    rw [hdata (f.width - 1) y, hright y]
    have hd : decide (f.width - 1 < FEATURE_BOUNDARY + 1) = false := by
      rw [decide_eq_false_iff_not, hF]
      omega
    rw [hd]
    simp

/-- C10 witness: the theorem applied on the concrete mask `cexMask`,
whose bottom 8 rows and rightmost 8 columns are BACKGROUND; the bottom
row and rightmost column of its line mask are BACKGROUND. -/
theorem C10_borders_stay_background_witness :
    cexLines.data 3 65 = false ∧ cexLines.data 49 10 = false := by
  have h := C10_borders_stay_background cexMask cexLines (by decide) (by decide)
    (by
      intro x y h1 h2 h3
      have h1' : 42 ≤ x := by
        simpa [cexMask, FEATURE_BOUNDARY] using h1
      have hne : (x == 20) = false := by
        rw [beq_eq_false_iff_ne]
        omega
      show cexMask.data x y = false
      simp [cexMask, hne])
    (by
      intro x y h1 h2 h3
      have h2' : 58 ≤ y := by
        simpa [cexMask, FEATURE_BOUNDARY] using h2
      show cexMask.data x y = false
      simp only [cexMask]
      simp
      omega)
    rfl
  exact ⟨h.1 3, h.2 10⟩

theorem mycols_eq_map : ∀ (n c : Nat),
    mycols c n = (List.range n).map (fun k => k + c) := by
  intro n
  induction n with
  | zero => intro c; rfl
  | succ n ih =>
    intro c
    show c :: mycols (c + 1) n = _
    rw [ih (c + 1), List.range_succ_eq_map, List.map_cons, List.map_map]
    congr 1
    · omega
    · congr 1
      funext k
      show k + (c + 1) = k.succ + c
      omega

theorem mycols_zero (n : Nat) : mycols 0 n = List.range n := by
  rw [mycols_eq_map]
  simp

theorem cellTrailing_shape (lines : Mask) (r cy ch px c : Nat) :
    ((cellTrailing lines r cy ch px c).map Cell.col =
      mycols c (cellTrailing lines r cy ch px c).length) ∧
    (∀ cell ∈ cellTrailing lines r cy ch px c,
      cell.row = r ∧ cell.y = cy ∧ cell.height = ch) := by
  unfold cellTrailing
  split
  · refine ⟨rfl, ?_⟩
    intro cell hcell
    rw [List.mem_singleton] at hcell
    subst hcell
    exact ⟨rfl, rfl, rfl⟩
  · refine ⟨rfl, ?_⟩
    intro cell hcell
    cases hcell

theorem cellScan_shape (lines : Mask) (r cy ch cym : Nat) :
    ∀ fuel x px c,
      ((cellScan lines r cy ch cym fuel x px c).map Cell.col =
        mycols c (cellScan lines r cy ch cym fuel x px c).length) ∧
      (∀ cell ∈ cellScan lines r cy ch cym fuel x px c,
        cell.row = r ∧ cell.y = cy ∧ cell.height = ch) := by
  intro fuel
  induction fuel with
  | zero =>
    intro x px c
    exact cellTrailing_shape lines r cy ch px c
  | succ fuel ih =>
    intro x px c
    simp only [cellScan]
    by_cases hxw : x < lines.width
    · rw [if_pos hxw]
      by_cases hdata : lines.data x cym = true
      · rw [if_pos hdata]
        obtain ⟨ih1, ih2⟩ := ih (x + CELL_MIN_WIDTH_PX) (x + 1) (c + 1)
        constructor
        · simp only [List.map_cons, List.length_cons, mycols]
          rw [ih1]
        · intro cell hcell
          rcases List.mem_cons.mp hcell with rfl | hmem
          · exact ⟨rfl, rfl, rfl⟩
          · exact ih2 cell hmem
      · rw [if_neg hdata]
        exact ih (x + 1) px c
    · rw [if_neg hxw]
      exact cellTrailing_shape lines r cy ch px c

theorem detect_cells_in_row_shape (lines : Mask) (r yt yb : Nat) :
    ((detect_cells_in_row lines r yt yb).map Cell.col =
      List.range (detect_cells_in_row lines r yt yb).length) ∧
    (∀ cell ∈ detect_cells_in_row lines r yt yb,
      cell.row = r ∧ cell.y = yt ∧ cell.height = yb - yt - 1) := by
  unfold detect_cells_in_row
  obtain ⟨h1, h2⟩ := cellScan_shape lines r yt (yb - yt - 1)
    (yt + (yb - yt - 1) / 2) lines.width (CELL_MIN_WIDTH_PX - 1) 0 0
  exact ⟨by rw [h1, mycols_zero], h2⟩

theorem rowTrailing_shape (lines : Mask) (py r : Nat) :
    (((rowTrailing lines py r).map Cell.col =
      List.range (rowTrailing lines py r).length)) ∧
    (∀ cell ∈ rowTrailing lines py r,
      cell.row = r ∧ cell.y = py ∧ cell.height = lines.height - 1 - py - 1) := by
  unfold rowTrailing
  split
  · exact detect_cells_in_row_shape lines r py (lines.height - 1)
  · refine ⟨rfl, ?_⟩
    intro cell hcell
    cases hcell

theorem rowTrailing_row (lines : Mask) (py r : Nat) :
    ∀ cell ∈ rowTrailing lines py r, cell.row = r :=
  fun cell hcell => ((rowTrailing_shape lines py r).2 cell hcell).1

theorem rowScan_row_ge (lines : Mask) :
    ∀ fuel y py r, ∀ cell ∈ rowScan lines fuel y py r, r ≤ cell.row := by
  intro fuel
  induction fuel with
  | zero =>
    intro y py r cell hcell
    exact le_of_eq (rowTrailing_row lines py r cell hcell).symm
  | succ fuel ih =>
    intro y py r cell hcell
    simp only [rowScan] at hcell
    by_cases hy : y < lines.height
    · rw [if_pos hy] at hcell
      by_cases hrow : (lines.data 0 y || y == lines.height - 1) = true
      · rw [if_pos hrow] at hcell
        rcases List.mem_append.mp hcell with hmem | hmem
        · exact le_of_eq ((detect_cells_in_row_shape lines r py y).2 cell hmem).1.symm
        · exact le_trans (by omega) (ih _ _ (r + 1) cell hmem)
      · rw [if_neg hrow] at hcell
        exact ih _ _ r cell hcell
    · rw [if_neg hy] at hcell
      exact le_of_eq (rowTrailing_row lines py r cell hcell).symm

theorem pairwise_row_le_of_const {l : List Cell} {r : Nat}
    (h : ∀ cell ∈ l, cell.row = r) :
    List.Pairwise (fun a b : Cell => a.row ≤ b.row) l := by
  induction l with
  | nil => exact List.Pairwise.nil
  | cons hd tl ih =>
    constructor
    · intro b hb
      rw [h hd (List.mem_cons_self hd tl), h b (List.mem_cons_of_mem hd hb)]
    · exact ih fun cell hcell => h cell (List.mem_cons_of_mem hd hcell)

theorem rowScan_pairwise (lines : Mask) :
    ∀ fuel y py r,
      List.Pairwise (fun a b : Cell => a.row ≤ b.row) (rowScan lines fuel y py r) := by
  intro fuel
  induction fuel with
  | zero =>
    intro y py r
    exact pairwise_row_le_of_const (rowTrailing_row lines py r)
  | succ fuel ih =>
    intro y py r
    simp only [rowScan]
    by_cases hy : y < lines.height
    · rw [if_pos hy]
      by_cases hrow : (lines.data 0 y || y == lines.height - 1) = true
      · rw [if_pos hrow]
        rw [List.pairwise_append]
        refine ⟨pairwise_row_le_of_const
          (fun cell h => ((detect_cells_in_row_shape lines r py y).2 cell h).1),
          ih _ _ _, ?_⟩
        intro a ha b hb
        have h1 := ((detect_cells_in_row_shape lines r py y).2 a ha).1
        have h2 := rowScan_row_ge lines fuel (y + CELL_MIN_HEIGHT_PX) (y + 1)
          (r + 1) b hb
        omega
      · rw [if_neg hrow]
        exact ih _ _ _
    · rw [if_neg hy]
      exact pairwise_row_le_of_const (rowTrailing_row lines py r)

theorem filter_cols_of_row_block {l : List Cell} {r rq : Nat}
    (hrow : ∀ cell ∈ l, cell.row = r)
    (hcols : l.map Cell.col = List.range l.length) :
    (l.filter (fun cell => cell.row == rq)).map Cell.col =
      List.range (l.filter (fun cell => cell.row == rq)).length := by
  by_cases hrq : rq = r
  · subst hrq
    rw [List.filter_eq_self.mpr]
    · exact hcols
    · intro cell hmem
      rw [hrow cell hmem]
      exact beq_self_eq_true rq
  · rw [List.filter_eq_nil_iff.mpr]
    · rfl
    · intro cell hmem
      rw [hrow cell hmem]
      simp only [beq_iff_eq]
      omega

theorem filter_eq_nil_of_row_gt {l : List Cell} {rq r1 : Nat}
    (hge : ∀ cell ∈ l, r1 ≤ cell.row) (hlt : rq < r1) :
    l.filter (fun cell => cell.row == rq) = [] := by
  rw [List.filter_eq_nil_iff]
  intro cell hmem
  have := hge cell hmem
  simp only [beq_iff_eq]
  omega

theorem rowScan_filter_cols (lines : Mask) (rq : Nat) :
    ∀ fuel y py r,
      ((rowScan lines fuel y py r).filter (fun cell => cell.row == rq)).map
          Cell.col =
        List.range
          ((rowScan lines fuel y py r).filter (fun cell => cell.row == rq)).length := by
  intro fuel
  induction fuel with
  | zero =>
    intro y py r
    exact filter_cols_of_row_block (rowTrailing_row lines py r)
      (rowTrailing_shape lines py r).1
  | succ fuel ih =>
    intro y py r
    simp only [rowScan]
    by_cases hy : y < lines.height
    · rw [if_pos hy]
      by_cases hrow : (lines.data 0 y || y == lines.height - 1) = true
      · rw [if_pos hrow, List.filter_append]
        by_cases hrq : rq = r
        · subst hrq
          rw [filter_eq_nil_of_row_gt
            (rowScan_row_ge lines fuel (y + CELL_MIN_HEIGHT_PX) (y + 1) (rq + 1))
            (by omega), List.append_nil]
          exact filter_cols_of_row_block
            (fun cell h => ((detect_cells_in_row_shape lines rq py y).2 cell h).1)
            (detect_cells_in_row_shape lines rq py y).1
        · rw [List.filter_eq_nil_iff.mpr, List.nil_append]
          · exact ih _ _ _
          · intro cell hmem
            rw [((detect_cells_in_row_shape lines r py y).2 cell hmem).1]
            simp only [beq_iff_eq]
            omega
      · rw [if_neg hrow]
        exact ih _ _ _
    · rw [if_neg hy]
      exact filter_cols_of_row_block (rowTrailing_row lines py r)
        (rowTrailing_shape lines py r).1

theorem rowScan_same_row (lines : Mask) :
    ∀ fuel y py r, ∀ a ∈ rowScan lines fuel y py r,
      ∀ b ∈ rowScan lines fuel y py r, a.row = b.row →
        a.y = b.y ∧ a.height = b.height := by
  intro fuel
  induction fuel with
  | zero =>
    intro y py r a ha b hb _
    obtain ⟨-, hay, hah⟩ := (rowTrailing_shape lines py r).2 a ha
    obtain ⟨-, hby, hbh⟩ := (rowTrailing_shape lines py r).2 b hb
    rw [hay, hah, hby, hbh]
    exact ⟨rfl, rfl⟩
  | succ fuel ih =>
    intro y py r a ha b hb hab
    simp only [rowScan] at ha hb
    by_cases hy : y < lines.height
    · rw [if_pos hy] at ha hb
      by_cases hrow : (lines.data 0 y || y == lines.height - 1) = true
      · rw [if_pos hrow] at ha hb
        rcases List.mem_append.mp ha with hma | hma <;>
          rcases List.mem_append.mp hb with hmb | hmb
        · obtain ⟨-, hay, hah⟩ := (detect_cells_in_row_shape lines r py y).2 a hma
          obtain ⟨-, hby, hbh⟩ := (detect_cells_in_row_shape lines r py y).2 b hmb
          rw [hay, hah, hby, hbh]
          exact ⟨rfl, rfl⟩
        · have h1 := ((detect_cells_in_row_shape lines r py y).2 a hma).1
          have h2 := rowScan_row_ge lines fuel (y + CELL_MIN_HEIGHT_PX) (y + 1)
            (r + 1) b hmb
          omega
        · have h1 := ((detect_cells_in_row_shape lines r py y).2 b hmb).1
          have h2 := rowScan_row_ge lines fuel (y + CELL_MIN_HEIGHT_PX) (y + 1)
            (r + 1) a hma
          omega
        · exact ih _ _ _ a hma b hmb hab
      · rw [if_neg hrow] at ha hb
        exact ih _ _ _ a ha b hb hab
    · rw [if_neg hy] at ha hb
      obtain ⟨-, hay, hah⟩ := (rowTrailing_shape lines py r).2 a ha
      obtain ⟨-, hby, hbh⟩ := (rowTrailing_shape lines py r).2 b hb
      rw [hay, hah, hby, hbh]
      exact ⟨rfl, rfl⟩

/-- C8: in the cell list returned by `detect_cells`, `row` is
non-decreasing across the sequence; within each row the `col` values are
exactly `0, 1, 2, ...` in order (so `col` starts at 0 and is strictly
increasing, resetting at each new row); and all cells bearing the same
`row` index share identical `y` and `height`. -/
theorem C8_cell_ordering (lines : Mask) :
    List.Pairwise (fun a b : Cell => a.row ≤ b.row) (detect_cells lines) ∧
    (∀ r, ((detect_cells lines).filter (fun cell => cell.row == r)).map
        Cell.col =
      List.range
        ((detect_cells lines).filter (fun cell => cell.row == r)).length) ∧
    (∀ a ∈ detect_cells lines, ∀ b ∈ detect_cells lines, a.row = b.row →
      a.y = b.y ∧ a.height = b.height) := by
  unfold detect_cells
  exact ⟨rowScan_pairwise lines _ _ _ _,
    fun r => rowScan_filter_cols lines r _ _ _ _,
    rowScan_same_row lines _ _ _ _⟩

/-- C8 witness: the invariants instantiated on the concrete 20×25 mask
`m20` (whose cell list is the single full-frame cell). -/
theorem C8_cell_ordering_witness :
    ((detect_cells m20).filter (fun cell => cell.row == 0)).map Cell.col =
      List.range ((detect_cells m20).filter (fun cell => cell.row == 0)).length :=
  (C8_cell_ordering m20).2.1 0

theorem cellTrailing_bounds (lines : Mask) (r cy ch px c : Nat)
    (Hyh : cy + ch < lines.height) (Hch : 8 ≤ ch) :
    ∀ cell ∈ cellTrailing lines r cy ch px c,
      cell.x + cell.width < lines.width ∧
        cell.y + cell.height < lines.height ∧
        6 ≤ cell.width ∧ 8 ≤ cell.height := by
  unfold cellTrailing
  have hC : CELL_MIN_WIDTH_PX = 8 := rfl
  split_ifs with h
  · rw [hC] at h
    intro cell hcell
    rw [List.mem_singleton] at hcell
    subst hcell
    refine ⟨?_, Hyh, ?_, Hch⟩
    · show px + (lines.width - px - 1) < lines.width
      omega
    · show 6 ≤ lines.width - px - 1
      omega
  · intro cell hcell
    cases hcell

theorem cellScan_bounds (lines : Mask) (r cy ch cym : Nat)
    (Hyh : cy + ch < lines.height) (Hch : 8 ≤ ch) :
    ∀ fuel x px c, px + 7 ≤ x →
      ∀ cell ∈ cellScan lines r cy ch cym fuel x px c,
        cell.x + cell.width < lines.width ∧
          cell.y + cell.height < lines.height ∧
          6 ≤ cell.width ∧ 8 ≤ cell.height := by
  have hC : CELL_MIN_WIDTH_PX = 8 := rfl
  intro fuel
  induction fuel with
  | zero =>
    intro x px c _ cell hcell
    exact cellTrailing_bounds lines r cy ch px c Hyh Hch cell hcell
  | succ fuel ih =>
    intro x px c hinv cell hcell
    simp only [cellScan] at hcell
    by_cases hxw : x < lines.width
    · rw [if_pos hxw] at hcell
      by_cases hdata : lines.data x cym = true
      · rw [if_pos hdata] at hcell
        rcases List.mem_cons.mp hcell with rfl | hmem
        · refine ⟨?_, Hyh, ?_, Hch⟩
          · show px + (x - px - 1) < lines.width
            omega
          · show 6 ≤ x - px - 1
            omega
        · exact ih (x + CELL_MIN_WIDTH_PX) (x + 1) (c + 1) (by omega) cell hmem
      · rw [if_neg hdata] at hcell
        exact ih (x + 1) px c (by omega) cell hcell
    · rw [if_neg hxw] at hcell
      exact cellTrailing_bounds lines r cy ch px c Hyh Hch cell hcell

theorem detect_cells_in_row_bounds (lines : Mask) (r yt yb : Nat)
    (h1 : yt + 9 ≤ yb) (h2 : yb < lines.height) :
    ∀ cell ∈ detect_cells_in_row lines r yt yb,
      cell.x + cell.width < lines.width ∧
        cell.y + cell.height < lines.height ∧
        6 ≤ cell.width ∧ 8 ≤ cell.height := by
  unfold detect_cells_in_row
  exact cellScan_bounds lines r yt (yb - yt - 1) (yt + (yb - yt - 1) / 2)
    (by omega) (by omega) lines.width (CELL_MIN_WIDTH_PX - 1) 0 0
    (by have hC : CELL_MIN_WIDTH_PX = 8 := rfl; omega)

theorem rowTrailing_bounds (lines : Mask) (py r : Nat) :
    ∀ cell ∈ rowTrailing lines py r,
      cell.x + cell.width < lines.width ∧
        cell.y + cell.height < lines.height ∧
        6 ≤ cell.width ∧ 8 ≤ cell.height := by
  unfold rowTrailing
  have hC : CELL_MIN_HEIGHT_PX = 10 := rfl
  split_ifs with h
  · rw [hC] at h
    exact detect_cells_in_row_bounds lines r py (lines.height - 1)
      (by omega) (by omega)
  · intro cell hcell
    cases hcell

theorem rowScan_bounds (lines : Mask) :
    ∀ fuel y py r, py + 9 ≤ y →
      ∀ cell ∈ rowScan lines fuel y py r,
        cell.x + cell.width < lines.width ∧
          cell.y + cell.height < lines.height ∧
          6 ≤ cell.width ∧ 8 ≤ cell.height := by
  have hC : CELL_MIN_HEIGHT_PX = 10 := rfl
  intro fuel
  induction fuel with
  | zero =>
    intro y py r _ cell hcell
    exact rowTrailing_bounds lines py r cell hcell
  | succ fuel ih =>
    intro y py r hinv cell hcell
    simp only [rowScan] at hcell
    by_cases hy : y < lines.height
    · rw [if_pos hy] at hcell
      by_cases hrow : (lines.data 0 y || y == lines.height - 1) = true
      · rw [if_pos hrow] at hcell
        rcases List.mem_append.mp hcell with hmem | hmem
        · exact detect_cells_in_row_bounds lines r py y (by omega) hy cell hmem
        · exact ih (y + CELL_MIN_HEIGHT_PX) (y + 1) (r + 1) (by omega) cell hmem
      · rw [if_neg hrow] at hcell
        exact ih (y + 1) py r (by omega) cell hcell
    · rw [if_neg hy] at hcell
      exact rowTrailing_bounds lines py r cell hcell

/-- C9: every cell returned by `detect_cells` has its bounding box inside
the source image, `x + width < image width` and `y + height < image
height`; moreover every cell's `width` is at least 6 and its `height` at
least 8, which shows the `u32` subtractions `x − prev_x − 1`,
`y_bottom − y_top − 1` and `width − prev_x − 1` computing them never
underflow (an underflow would instead produce a value near `2^32`,
violating containment, or 0 under truncating subtraction, violating the
lower bounds). -/
theorem C9_cell_containment (lines : Mask) :
    ∀ cell ∈ detect_cells lines,
      cell.x + cell.width < lines.width ∧
        cell.y + cell.height < lines.height ∧
        6 ≤ cell.width ∧ 8 ≤ cell.height := by
  unfold detect_cells
  exact rowScan_bounds lines lines.height (CELL_MIN_HEIGHT_PX - 1) 0 0
    (by have hC : CELL_MIN_HEIGHT_PX = 10 := rfl; omega)

/-- C9 witness: the containment facts for the one cell `detect_cells`
finds on the 20×25 all-BACKGROUND mask `m20`. -/
theorem C9_cell_containment_witness :
    0 + 19 < m20.width ∧ 0 + 23 < m20.height ∧ 6 ≤ 19 ∧ 8 ≤ 23 :=
  C9_cell_containment m20 ⟨0, 0, 0, 0, 19, 23⟩ (by decide)
